import Mathlib

/-!
Verification of the incremental invalidation engine of mpyl
(`src/mpyl/stages/discovery.py`): project discovery per pipeline stage,
staleness of recorded outputs against revision history, and the build-set
resolver's selection policy.

The engine's value types (`Revision`, `Project`, `Output`, `ProjectExecution`,
`Stage`, the deploy stage name) live outside the discovery module; they are
modelled here from the specification's data-model section.  The artifact
lookup (`Output.try_read`) is a read-only collaborator; it is modelled as an
explicit function parameter `outputs : Project → String → Option Output`.
Python's stable `sorted` is modelled by `List.insertionSort`, which is also
stable; Python `str.startswith` is modelled on the underlying character list.
-/

namespace Mpyl

/-- Modelled from the spec: the produced artifact of an `Output`
(`steps/models.py` is absent from the sources); only its recorded
revision hash is consulted by the engine. -/
structure Artifact where
  revision : String
deriving DecidableEq

/-- Modelled from the spec: `Output` is the last recorded result of executing
a (project, stage) pair: a success flag and an optional produced artifact. -/
structure Output where
  success : Bool
  produced_artifact : Option Artifact
deriving DecidableEq

/-- Modelled from the spec: a `Revision` is a commit hash, an ordinal that
defines chronological order, and the set of files it touched
(`utilities/repo.py` is absent from the sources). -/
structure Revision where
  ord : Nat
  hash : String
  files_touched : Finset String
deriving DecidableEq

/-- Modelled from the spec: a pipeline `Stage`, identified by its name. -/
structure Stage where
  name : String
deriving DecidableEq

/-- Modelled from the spec: the per-project mapping Stage → optional
stage-config; the engine only ever tests presence of the entry, so the
config payload is modelled as `Unit`. -/
structure Stages where
  participating : List String
deriving DecidableEq

/-- Modelled from the spec: lookup of the stage entry; `some` exactly when
the project declares participation in the stage. -/
def Stages.for_stage (s : Stages) (stage : String) : Option Unit :=
  if stage ∈ s.participating then some () else none

/-- Modelled from the spec: the per-stage dependency-path table of a
project; absence of an entry for a stage is an empty set of paths. -/
structure Dependencies where
  entries : List (String × List String)
deriving DecidableEq

/-- Modelled from the spec: the set of dependency paths a project declares
for a stage (empty when the stage has no entry). -/
def Dependencies.set_for_stage (d : Dependencies) (stage : String) : List String :=
  (d.entries.lookup stage).getD []

/-- Modelled from the spec: a `Project` has a unique name, a root path, its
stage-participation table and an optional dependency table
(`project.py` is absent from the sources). -/
structure Project where
  name : String
  root_path : String
  stages : Stages
  dependencies : Option Dependencies
deriving DecidableEq

/-- Modelled from the spec: a scheduled execution of a project, carrying the
set of changed files that is the reason it is scheduled (empty for forced
scheduling). -/
structure ProjectExecution where
  project : Project
  changed_files : Finset String
deriving DecidableEq

/-- Modelled from the spec: `steps/deploy/__init__.py` (absent from the
sources) names the deploy stage. -/
def deploySTAGE_NAME : String := "deploy"

/-- Embedding of Python `s.startswith(pre)` on the underlying character
list (the string primitives do not reduce in the kernel). -/
def str_starts_with (s pre : String) : Bool :=
  List.isPrefixOf pre.data s.data

/-- The dependency paths consulted by `is_invalidated`: the project's
declared set for the stage, or empty when no dependency table exists
(`deps.set_for_stage(stage) if deps else {}`). -/
def deps_for_stage (project : Project) (stage : String) : List String :=
  match project.dependencies with
  | some d => d.set_for_stage stage
  | none => []

/-- `discovery.is_invalidated`: a changed `path` invalidates `project` for
`stage` when it starts with the project's root path or with one of the
declared dependency paths for the stage (dependency paths are only
searched when a dependency table exists). -/
def is_invalidated (project : Project) (stage : String) (path : String) : Bool :=
  let touched_dependency : Option String :=
    match project.dependencies with
    | some _ => (deps_for_stage project stage).find? (fun dep => str_starts_with path dep)
    | none => none
  str_starts_with path project.root_path || touched_dependency.isSome

/-- `discovery.output_invalidated`: an output is stale against a candidate
revision hash when it is absent, failed, artifact-less, or its artifact
records a different revision hash. -/
def output_invalidated (output : Option Output) (revision_hash : String) : Bool :=
  match output with
  | none => true
  | some o =>
    if !o.success then true
    else
      match o.produced_artifact with
      | none => true
      | some artifact => artifact.revision != revision_hash

/-- The history walk order of `_to_relevant_changes`:
`reversed(sorted(change_history, key=lambda c: c.ord))`, i.e. a stable
ascending sort by ordinal, reversed. -/
def sorted_desc (change_history : List Revision) : List Revision :=
  (change_history.insertionSort (fun a b => a.ord ≤ b.ord)).reverse

/-- The accumulation loop of `_to_relevant_changes`: union the touched files
of each revision while the stage is the deploy stage or the output is stale
against that revision's hash; stop and return the accumulator at the first
revision whose output is fresh. -/
def relevant_loop (stage : String) (output : Option Output) :
    List Revision → Finset String → Finset String
  | [], relevant => relevant
  | r :: rest, relevant =>
    if (stage == deploySTAGE_NAME) || output_invalidated output r.hash then
      relevant_loop stage output rest (relevant ∪ r.files_touched)
    else
      relevant

/-- `discovery._to_relevant_changes`, with the output read by
`Output.try_read(project.target_path, stage)` passed in explicitly. -/
def to_relevant_changes (output : Option Output) (stage : String)
    (change_history : List Revision) : Finset String :=
  relevant_loop stage output (sorted_desc change_history) ∅

/-- Union of the touched files of a list of revisions. -/
def union_touched (history : List Revision) : Finset String :=
  history.foldr (fun r acc => r.files_touched ∪ acc) ∅

/-- `discovery._to_project_execution`: nothing when the project does not
participate in the stage; otherwise the relevant changes filtered through
`is_invalidated`, yielding an execution exactly when that set is non-empty. -/
def to_project_execution (outputs : Project → String → Option Output)
    (project : Project) (stage : String) (change_history : List Revision) :
    Option ProjectExecution :=
  match project.stages.for_stage stage with
  | none => none
  | some _ =>
    let relevant_changes := to_relevant_changes (outputs project stage) stage change_history
    let files_changed := relevant_changes.filter (fun c => is_invalidated project stage c = true)
    if files_changed ≠ ∅ then some ⟨project, files_changed⟩ else none

/-- `discovery.build_project_executions`: the set of executions produced by
`_to_project_execution` over all projects, with `None` results dropped. -/
def build_project_executions (outputs : Project → String → Option Output)
    (all_projects : Finset Project) (stage : String)
    (change_history : List Revision) : Finset ProjectExecution :=
  all_projects.biUnion
    (fun project => (to_project_execution outputs project stage change_history).toFinset)

/-- `discovery.for_stage`: the projects whose stage entry is present (Python
truthiness of the optional stage config). -/
def for_stage (projects : Finset Project) (stage : Stage) : Finset Project :=
  projects.filter (fun p => (p.stages.for_stage stage.name).isSome = true)

/-- Python truthiness of an optional string: `None` and `""` are falsy. -/
def truthy : Option String → Bool
  | none => false
  | some s => !s.isEmpty

/-- Embedding of Python `s.split(",")` on the underlying character list. -/
def split_on_comma_chars : List Char → List (List Char)
  | [] => [[]]
  | c :: rest =>
    match split_on_comma_chars rest with
    | [] => [[c]]
    | cur :: done => if c = ',' then [] :: cur :: done else (c :: cur) :: done

/-- Embedding of Python `selected_projects.split(",")`. -/
def split_on_comma (s : String) : List String :=
  (split_on_comma_chars s.data).map (fun cs => String.mk cs)

/-- The per-stage loop of `discovery.find_build_set`, threading the
(possibly narrowed) project set exactly as the Python loop reassigns
`all_projects`.  A stage is skipped when a truthy `selected_stage` names a
different stage; the forced branch applies when `build_all` or a truthy
`selected_projects` is given, narrowing to the named projects and
scheduling every participating project with an empty change set; otherwise
the incremental branch delegates to `build_project_executions`. -/
def find_build_set_loop (outputs : Project → String → Option Output)
    (changes_in_branch : List Revision) (build_all : Bool)
    (selected_stage selected_projects : Option String)
    (projects_list : List String) :
    Finset Project → List Stage → List (Stage × Finset ProjectExecution)
  | _, [] => []
  | all_projects, stage :: rest =>
    if truthy selected_stage = true ∧ selected_stage ≠ some stage.name then
      find_build_set_loop outputs changes_in_branch build_all selected_stage
        selected_projects projects_list all_projects rest
    else if build_all || truthy selected_projects then
      let narrowed :=
        if truthy selected_projects = true then
          all_projects.filter (fun p => p.name ∈ projects_list)
        else all_projects
      (stage, (for_stage narrowed stage).image (fun p => ProjectExecution.mk p ∅)) ::
        find_build_set_loop outputs changes_in_branch build_all selected_stage
          selected_projects projects_list narrowed rest
    else
      (stage, build_project_executions outputs all_projects stage.name changes_in_branch) ::
        find_build_set_loop outputs changes_in_branch build_all selected_stage
          selected_projects projects_list all_projects rest

/-- `discovery.find_build_set`: per-stage build sets under the selection
policy (forced full build / explicit comma-separated project filter /
incremental).  The result is the association list of (stage, execution set)
pairs in stage order; skipped stages are absent. -/
def find_build_set (outputs : Project → String → Option Output)
    (all_projects : Finset Project) (changes_in_branch : List Revision)
    (stages : List Stage) (build_all : Bool)
    (selected_stage selected_projects : Option String) :
    List (Stage × Finset ProjectExecution) :=
  let projects_list :=
    match selected_projects with
    | some s => split_on_comma s
    | none => []
  find_build_set_loop outputs changes_in_branch build_all selected_stage
    selected_projects projects_list all_projects stages

instance : IsTotal Revision (fun a b => a.ord ≤ b.ord) :=
  ⟨fun a b => Nat.le_total a.ord b.ord⟩

instance : IsTrans Revision (fun a b => a.ord ≤ b.ord) :=
  ⟨fun _ _ _ => Nat.le_trans⟩

instance : IsAntisymm Revision (fun a b => a.ord < b.ord) :=
  ⟨fun _ _ h h' => ((Nat.lt_asymm h) h').elim⟩

/-- Concrete project with no dependency table, used in example instances. -/
def projA : Project := ⟨"A", "svcA/", ⟨["build"]⟩, none⟩

/-- Concrete project with a declared BUILD dependency on `shared/`. -/
def projB : Project := ⟨"B", "svcB/", ⟨["build"]⟩, some ⟨[("build", ["shared/"])]⟩⟩

/-- Concrete revision touching a shared library file. -/
def revShared : Revision := ⟨1, "h1", {"shared/util.go"}⟩

/-- Artifact lookup collaborator recording no output for any pair. -/
def no_outputs : Project → String → Option Output := fun _ _ => none

/-- The BUILD stage. -/
def buildStage : Stage := ⟨"build"⟩

/-- Oldest revision of the three-revision example history. -/
def revA1 : Revision := ⟨1, "ha1", {"f1"}⟩

/-- Middle revision of the three-revision example history. -/
def revA2 : Revision := ⟨2, "ha2", {"f2"}⟩

/-- Newest revision of the three-revision example history. -/
def revA3 : Revision := ⟨3, "ha3", {"f3"}⟩

/-- A successful recorded output whose artifact was built at `revA2`. -/
def outAt2 : Option Output := some ⟨true, some ⟨"ha2"⟩⟩

theorem union_touched_nil : union_touched [] = ∅ := rfl

theorem union_touched_cons (r : Revision) (l : List Revision) :
    union_touched (r :: l) = r.files_touched ∪ union_touched l := rfl

theorem mem_union_touched {f : String} :
    ∀ {l : List Revision}, f ∈ union_touched l ↔ ∃ r ∈ l, f ∈ r.files_touched
  | [] => by simp [union_touched_nil]
  | r :: rest => by
    rw [union_touched_cons, Finset.mem_union]
    simp [mem_union_touched (l := rest)]

theorem union_touched_eq_of_perm {l₁ l₂ : List Revision} (h : l₁.Perm l₂) :
    union_touched l₁ = union_touched l₂ := by
  ext f
  rw [mem_union_touched, mem_union_touched]
  constructor
  · rintro ⟨r, hr, hf⟩; exact ⟨r, h.mem_iff.mp hr, hf⟩
  · rintro ⟨r, hr, hf⟩; exact ⟨r, h.mem_iff.mpr hr, hf⟩

theorem sorted_desc_perm (l : List Revision) : (sorted_desc l).Perm l :=
  (List.reverse_perm _).trans (List.perm_insertionSort _ l)

theorem sorted_desc_pairwise (l : List Revision) :
    (sorted_desc l).Pairwise (fun a b => b.ord ≤ a.ord) := by
  rw [sorted_desc, List.pairwise_reverse]
  exact List.sorted_insertionSort _ l

theorem relevant_loop_deploy (output : Option Output) :
    ∀ (l : List Revision) (acc : Finset String),
    relevant_loop deploySTAGE_NAME output l acc = acc ∪ union_touched l
  | [], acc => by simp [relevant_loop, union_touched_nil]
  | r :: rest, acc => by
    rw [relevant_loop]
    simp only [beq_self_eq_true, Bool.true_or, if_true]
    rw [relevant_loop_deploy output rest (acc ∪ r.files_touched), union_touched_cons,
      Finset.union_assoc]

theorem relevant_loop_stale (stage : String) (output : Option Output)
    (hstage : stage ≠ deploySTAGE_NAME) (r : Revision) (post : List Revision)
    (hr : output_invalidated output r.hash = false) :
    ∀ (pre : List Revision) (acc : Finset String),
    (∀ q ∈ pre, output_invalidated output q.hash = true) →
    relevant_loop stage output (pre ++ r :: post) acc = acc ∪ union_touched pre
  | [], acc, _ => by
    rw [List.nil_append, relevant_loop]
    have hbeq : (stage == deploySTAGE_NAME) = false := by
      simp only [beq_eq_false_iff_ne, ne_eq]; exact hstage
    rw [hbeq, hr]
    simp [union_touched_nil]
  | q :: pre', acc, hpre => by
    rw [List.cons_append, relevant_loop]
    have hq : output_invalidated output q.hash = true := hpre q (List.mem_cons_self q pre')
    rw [hq]
    simp only [Bool.or_true, if_true]
    rw [relevant_loop_stale stage output hstage r post hr pre' (acc ∪ q.files_touched)
      (fun x hx => hpre x (List.mem_cons_of_mem q hx)), union_touched_cons,
      Finset.union_assoc]

theorem pairwise_lt_of_le_nodup {l : List Revision}
    (hle : l.Pairwise (fun a b => a.ord ≤ b.ord))
    (hnd : (l.map Revision.ord).Nodup) :
    l.Pairwise (fun a b => a.ord < b.ord) := by
  have hne : l.Pairwise (fun a b => a.ord ≠ b.ord) := List.pairwise_map.mp hnd
  exact (hle.and hne).imp (fun h => lt_of_le_of_ne h.1 h.2)

theorem sorted_desc_eq_of_perm {h₁ h₂ : List Revision} (hperm : h₁.Perm h₂)
    (hnd : (h₁.map Revision.ord).Nodup) : sorted_desc h₁ = sorted_desc h₂ := by
  unfold sorted_desc
  congr 1
  have p₁ := List.perm_insertionSort (fun a b : Revision => a.ord ≤ b.ord) h₁
  have p₂ := List.perm_insertionSort (fun a b : Revision => a.ord ≤ b.ord) h₂
  have hp := p₁.trans (hperm.trans p₂.symm)
  have nd₁ : ((h₁.insertionSort (fun a b => a.ord ≤ b.ord)).map Revision.ord).Nodup :=
    (p₁.map Revision.ord).nodup_iff.mpr hnd
  have nd₂ : ((h₂.insertionSort (fun a b => a.ord ≤ b.ord)).map Revision.ord).Nodup :=
    (hp.map Revision.ord).nodup_iff.mp nd₁
  exact List.eq_of_perm_of_sorted hp
    (pairwise_lt_of_le_nodup (List.sorted_insertionSort _ h₁) nd₁)
    (pairwise_lt_of_le_nodup (List.sorted_insertionSort _ h₂) nd₂)

/-- C3: `output_invalidated` returns true exactly when the output is absent,
failed, artifact-less, or its artifact's recorded revision hash differs from
the candidate hash; otherwise it returns false. -/
theorem output_invalidated_iff (output : Option Output) (revision_hash : String) :
    output_invalidated output revision_hash = true ↔
      output = none ∨
      ∃ o, output = some o ∧
        (o.success = false ∨ o.produced_artifact = none ∨
          ∃ a, o.produced_artifact = some a ∧ a.revision ≠ revision_hash) := by
  cases output with
  | none => simp [output_invalidated]
  | some o =>
    cases ho : o.produced_artifact with
    | none => cases hs : o.success <;> simp [output_invalidated, hs, ho]
    | some a =>
      cases hs : o.success <;>
        simp [output_invalidated, hs, ho, bne_iff_ne]

/-- C5: `is_invalidated` holds exactly when the changed path starts with the
project's root path or with one of the dependency paths the project declares
for the stage (an absent dependency table contributing the empty set). -/
theorem is_invalidated_iff (project : Project) (stage : String) (path : String) :
    is_invalidated project stage path = true ↔
      str_starts_with path project.root_path = true ∨
      ∃ dep ∈ deps_for_stage project stage, str_starts_with path dep = true := by
  cases hd : project.dependencies with
  | none =>
    simp [is_invalidated, hd, deps_for_stage]
  | some d =>
    simp [is_invalidated, hd, List.find?_isSome]

/-- C2: for the deploy stage the relevant-changes set is the union of every
revision's touched files, whatever output is recorded. -/
theorem deploy_relevant_changes_union_all (output : Option Output)
    (change_history : List Revision) :
    to_relevant_changes output deploySTAGE_NAME change_history
      = union_touched change_history := by
  rw [to_relevant_changes, relevant_loop_deploy, Finset.empty_union]
  exact union_touched_eq_of_perm (sorted_desc_perm change_history)

/-- C9: with project A (root `svcA/`), project B (root `svcB/`, BUILD
dependency `shared/`), a single revision touching `shared/util.go` and no
recorded outputs, the incremental build set for BUILD schedules exactly B,
carrying `shared/util.go`, and nothing for A. -/
theorem dependency_propagation_scenario :
    find_build_set no_outputs {projA, projB} [revShared] [buildStage] false none none
      = [(buildStage, {⟨projB, {"shared/util.go"}⟩})] := by decide

/-- C10: root matching is raw string-prefix matching with no path-component
boundary check: any path whose text extends the project's root path, with or
without an intervening separator, invalidates the project. -/
theorem root_prefix_extension_invalidates (project : Project) (stage : String)
    (rest : List Char) :
    is_invalidated project stage (String.mk (project.root_path.data ++ rest)) = true := by
  have h : str_starts_with (String.mk (project.root_path.data ++ rest))
      project.root_path = true := by
    rw [str_starts_with, List.isPrefixOf_iff_prefix]
    exact List.prefix_append _ rest
  rw [is_invalidated]
  simp [h]

/-- C1: for a non-deploy stage, the accumulation over the descending-ordinal
history stops at the first revision `r` whose recorded output is not stale
against `r.hash`, and returns exactly the union of the touched files of the
revisions strictly newer than `r`. -/
theorem relevant_changes_stop_at_fresh_output
    (stage : String) (output : Option Output) (history pre post : List Revision)
    (r : Revision)
    (hstage : stage ≠ deploySTAGE_NAME)
    (hsplit : sorted_desc history = pre ++ r :: post)
    (hpre : ∀ q ∈ pre, output_invalidated output q.hash = true)
    (hr : output_invalidated output r.hash = false)
    (hnodup : (history.map Revision.ord).Nodup) :
    to_relevant_changes output stage history = union_touched pre ∧
    ∀ f, f ∈ union_touched pre ↔ ∃ q ∈ history, r.ord < q.ord ∧ f ∈ q.files_touched := by
  have hperm : (pre ++ r :: post).Perm history := by
    rw [← hsplit]; exact sorted_desc_perm history
  have hpw : (pre ++ r :: post).Pairwise (fun a b => b.ord ≤ a.ord) := by
    rw [← hsplit]; exact sorted_desc_pairwise history
  have hndsplit : ((pre ++ r :: post).map Revision.ord).Nodup :=
    (hperm.map Revision.ord).nodup_iff.mpr hnodup
  have hne : (pre ++ r :: post).Pairwise (fun a b => a.ord ≠ b.ord) :=
    List.pairwise_map.mp hndsplit
  obtain ⟨-, hpw2, hcross⟩ := List.pairwise_append.mp hpw
  obtain ⟨-, -, hnecross⟩ := List.pairwise_append.mp hne
  have hprelt : ∀ q ∈ pre, r.ord < q.ord := fun q hq =>
    lt_of_le_of_ne (hcross q hq r (List.mem_cons_self _ _))
      (Ne.symm (hnecross q hq r (List.mem_cons_self _ _)))
  have hpostle : ∀ q ∈ post, q.ord ≤ r.ord :=
    fun q hq => (List.pairwise_cons.mp hpw2).1 q hq
  have hmem_pre : ∀ q, q ∈ pre ↔ q ∈ history ∧ r.ord < q.ord := by
    intro q
    constructor
    · intro hq
      exact ⟨hperm.mem_iff.mp (List.mem_append_left _ hq), hprelt q hq⟩
    · rintro ⟨qh, hlt⟩
      rcases List.mem_append.mp (hperm.mem_iff.mpr qh) with h1 | h2
      · exact h1
      · rcases List.mem_cons.mp h2 with rfl | h3
        · exact absurd hlt (lt_irrefl _)
        · exact absurd hlt (not_lt.mpr (hpostle q h3))
  constructor
  · rw [to_relevant_changes, hsplit,
      relevant_loop_stale stage output hstage r post hr pre ∅ hpre, Finset.empty_union]
  · intro f
    rw [mem_union_touched]
    constructor
    · rintro ⟨q, hq, hf⟩
      obtain ⟨qh, hlt⟩ := (hmem_pre q).mp hq
      exact ⟨q, qh, hlt, hf⟩
    · rintro ⟨q, qh, hlt, hf⟩
      exact ⟨q, (hmem_pre q).mpr ⟨qh, hlt⟩, hf⟩

/-- Witness for C1: history `[revA3, revA2, revA1]` with a valid output built
at `revA2` yields, for the non-deploy stage BUILD, exactly `revA3`'s files. -/
theorem relevant_changes_stop_at_fresh_output_witness :
    to_relevant_changes outAt2 "build" [revA3, revA2, revA1] = union_touched [revA3] :=
  (relevant_changes_stop_at_fresh_output "build" outAt2 [revA3, revA2, revA1]
    [revA3] [revA1] revA2 (by decide) (by decide) (by decide) (by decide) (by decide)).1

theorem to_relevant_changes_congr {h₁ h₂ : List Revision}
    (h : sorted_desc h₁ = sorted_desc h₂) (output : Option Output) (stage : String) :
    to_relevant_changes output stage h₁ = to_relevant_changes output stage h₂ := by
  rw [to_relevant_changes, to_relevant_changes, h]

theorem to_project_execution_congr (outputs : Project → String → Option Output)
    (p : Project) (st : String) {h₁ h₂ : List Revision}
    (h : sorted_desc h₁ = sorted_desc h₂) :
    to_project_execution outputs p st h₁ = to_project_execution outputs p st h₂ := by
  rw [to_project_execution, to_project_execution,
    to_relevant_changes_congr h (outputs p st) st]

theorem build_project_executions_congr (outputs : Project → String → Option Output)
    (ap : Finset Project) (st : String) {h₁ h₂ : List Revision}
    (h : sorted_desc h₁ = sorted_desc h₂) :
    build_project_executions outputs ap st h₁ = build_project_executions outputs ap st h₂ := by
  rw [build_project_executions, build_project_executions]
  congr 1
  funext p
  rw [to_project_execution_congr outputs p st h]

theorem find_build_set_loop_congr (outputs : Project → String → Option Output)
    (ba : Bool) (ss sp : Option String) (pl : List String) {h₁ h₂ : List Revision}
    (h : sorted_desc h₁ = sorted_desc h₂) :
    ∀ (stages : List Stage) (ap : Finset Project),
    find_build_set_loop outputs h₁ ba ss sp pl ap stages
      = find_build_set_loop outputs h₂ ba ss sp pl ap stages
  | [], _ => rfl
  | stage :: rest, ap => by
    rw [find_build_set_loop, find_build_set_loop]
    by_cases hskip : truthy ss = true ∧ ss ≠ some stage.name
    · rw [if_pos hskip, if_pos hskip]
      exact find_build_set_loop_congr outputs ba ss sp pl h rest ap
    · rw [if_neg hskip, if_neg hskip]
      cases hforce : (ba || truthy sp) with
      | true =>
        simp only [if_true]
        exact congrArg _ (find_build_set_loop_congr outputs ba ss sp pl h rest _)
      | false =>
        simp only [Bool.false_eq_true, if_false]
        rw [build_project_executions_congr outputs ap stage.name h]
        exact congrArg _ (find_build_set_loop_congr outputs ba ss sp pl h rest ap)

/-- C7: the build-set resolver is deterministic in its inputs: two histories
holding the same revisions (in any order, with the spec's distinct-ordinal
invariant) and otherwise identical inputs produce identical build sets. -/
theorem find_build_set_deterministic (outputs : Project → String → Option Output)
    (ap : Finset Project) (stages : List Stage) (ba : Bool) (ss sp : Option String)
    {h₁ h₂ : List Revision}
    (hperm : h₁.Perm h₂) (hnodup : (h₁.map Revision.ord).Nodup) :
    find_build_set outputs ap h₁ stages ba ss sp
      = find_build_set outputs ap h₂ stages ba ss sp := by
  simp only [find_build_set]
  exact find_build_set_loop_congr outputs ba ss sp _
    (sorted_desc_eq_of_perm hperm hnodup) stages ap

/-- Witness for C7: the two orderings of the example two-revision history
resolve to the same build set. -/
theorem find_build_set_deterministic_witness :
    find_build_set no_outputs {projA, projB} [revA2, revA3] [buildStage] false none none
      = find_build_set no_outputs {projA, projB} [revA3, revA2] [buildStage] false none none :=
  find_build_set_deterministic no_outputs {projA, projB} [buildStage] false none none
    (by decide) (by decide)

theorem mem_for_stage {projects : Finset Project} {stage : Stage} {p : Project} :
    p ∈ for_stage projects stage ↔
      p ∈ projects ∧ (p.stages.for_stage stage.name).isSome = true := by
  rw [for_stage]; exact Finset.mem_filter

theorem find_build_set_loop_build_all (outputs : Project → String → Option Output)
    (ch : List Revision) (ss : Option String) (pl : List String) :
    ∀ (stages : List Stage) (ap : Finset Project) (stage : Stage)
      (S : Finset ProjectExecution),
    (stage, S) ∈ find_build_set_loop outputs ch true ss none pl ap stages →
    S = (for_stage ap stage).image (fun p => ProjectExecution.mk p ∅)
  | [], _, _, _, h => absurd h (List.not_mem_nil _)
  | st :: rest, ap, stage, S, h => by
    rw [find_build_set_loop] at h
    by_cases hskip : truthy ss = true ∧ ss ≠ some st.name
    · rw [if_pos hskip] at h
      exact find_build_set_loop_build_all outputs ch ss pl rest ap stage S h
    · rw [if_neg hskip] at h
      rw [if_pos (by simp : (true || truthy none) = true)] at h
      simp only [truthy, Bool.false_eq_true, if_false] at h
      rcases List.mem_cons.mp h with heq | htail
      · have h1 : stage = st := congrArg Prod.fst heq
        have h2 := congrArg Prod.snd heq
        subst h1
        exact h2
      · exact find_build_set_loop_build_all outputs ch ss pl rest ap stage S htail

/-- C6: with `build_all`, every stage under consideration maps to exactly one
execution per project participating in that stage, each with an empty
changed-files set, for any revision history. -/
theorem build_all_schedules_participants (outputs : Project → String → Option Output)
    (ap : Finset Project) (ch : List Revision) (stages : List Stage)
    (ss : Option String) (stage : Stage) (S : Finset ProjectExecution)
    (hmem : (stage, S) ∈ find_build_set outputs ap ch stages true ss none) :
    (∀ pe ∈ S, pe.changed_files = ∅ ∧ pe.project ∈ ap ∧
      (pe.project.stages.for_stage stage.name).isSome = true) ∧
    ∀ p ∈ ap, (p.stages.for_stage stage.name).isSome = true →
      S.filter (fun pe => pe.project = p) = {ProjectExecution.mk p ∅} := by
  have hS : S = (for_stage ap stage).image (fun p => ProjectExecution.mk p ∅) := by
    simp only [find_build_set] at hmem
    exact find_build_set_loop_build_all outputs ch ss _ stages ap stage S hmem
  subst hS
  constructor
  · intro pe hpe
    obtain ⟨p, hp, rfl⟩ := Finset.mem_image.mp hpe
    obtain ⟨hpap, hpart⟩ := mem_for_stage.mp hp
    exact ⟨rfl, hpap, hpart⟩
  · intro p hp hpart
    ext pe
    constructor
    · intro hpe
      obtain ⟨hpe_img, hproj⟩ := Finset.mem_filter.mp hpe
      obtain ⟨q, hq, rfl⟩ := Finset.mem_image.mp hpe_img
      have hqp : q = p := hproj
      subst hqp
      exact Finset.mem_singleton_self _
    · intro hpe
      rw [Finset.mem_singleton] at hpe
      subst hpe
      exact Finset.mem_filter.mpr
        ⟨Finset.mem_image.mpr ⟨p, mem_for_stage.mpr ⟨hp, hpart⟩, rfl⟩, rfl⟩

/-- Witness for C6: with one participating project and `build_all`, the BUILD
set holds exactly the forced execution of that project. -/
theorem build_all_schedules_participants_witness :
    Finset.filter (fun pe => pe.project = projA)
        ({ProjectExecution.mk projA ∅} : Finset ProjectExecution)
      = {ProjectExecution.mk projA ∅} :=
  (build_all_schedules_participants no_outputs {projA} [] [buildStage] none buildStage
    {ProjectExecution.mk projA ∅} (by decide)).2 projA (by decide) (by decide)

theorem to_project_execution_eq_some {outputs : Project → String → Option Output}
    {p : Project} {st : String} {ch : List Revision} {pe : ProjectExecution}
    (h : to_project_execution outputs p st ch = some pe) :
    pe.project = p ∧ (p.stages.for_stage st).isSome = true := by
  cases hf : p.stages.for_stage st with
  | none => simp [to_project_execution, hf] at h
  | some u =>
    simp only [to_project_execution, hf] at h
    split at h
    · cases Option.some.inj h
      exact ⟨rfl, rfl⟩
    · exact absurd h (by simp)

theorem find_build_set_loop_participates (outputs : Project → String → Option Output)
    (ch : List Revision) (ba : Bool) (ss sp : Option String) (pl : List String) :
    ∀ (stages : List Stage) (ap : Finset Project) (stage : Stage)
      (S : Finset ProjectExecution) (pe : ProjectExecution),
    (stage, S) ∈ find_build_set_loop outputs ch ba ss sp pl ap stages →
    pe ∈ S →
    (pe.project.stages.for_stage stage.name).isSome = true
  | [], _, _, _, _, h, _ => absurd h (List.not_mem_nil _)
  | st :: rest, ap, stage, S, pe, h, hpe => by
    rw [find_build_set_loop] at h
    by_cases hskip : truthy ss = true ∧ ss ≠ some st.name
    · rw [if_pos hskip] at h
      exact find_build_set_loop_participates outputs ch ba ss sp pl rest ap stage S pe h hpe
    · rw [if_neg hskip] at h
      by_cases hforce : (ba || truthy sp) = true
      · rw [if_pos hforce] at h
        rcases List.mem_cons.mp h with heq | htail
        · have h1 : stage = st := congrArg Prod.fst heq
          have h2 : S = _ := congrArg Prod.snd heq
          subst h1
          rw [h2] at hpe
          obtain ⟨p, hp, rfl⟩ := Finset.mem_image.mp hpe
          exact (mem_for_stage.mp hp).2
        · exact find_build_set_loop_participates outputs ch ba ss sp pl rest _ stage S pe htail hpe
      · rw [if_neg hforce] at h
        rcases List.mem_cons.mp h with heq | htail
        · have h1 : stage = st := congrArg Prod.fst heq
          have h2 : S = _ := congrArg Prod.snd heq
          subst h1
          rw [h2] at hpe
          rw [build_project_executions] at hpe
          obtain ⟨p, hpap, hpe2⟩ := Finset.mem_biUnion.mp hpe
          rw [Option.mem_toFinset, Option.mem_def] at hpe2
          obtain ⟨hproj, hpart⟩ := to_project_execution_eq_some hpe2
          rw [hproj]
          exact hpart
        · exact find_build_set_loop_participates outputs ch ba ss sp pl rest ap stage S pe htail hpe

/-- C8: in every build set the resolver produces, under any selection mode, a
member execution's project declares participation in that entry's stage. -/
theorem build_set_members_participate (outputs : Project → String → Option Output)
    (ap : Finset Project) (ch : List Revision) (stages : List Stage) (ba : Bool)
    (ss sp : Option String) (stage : Stage) (S : Finset ProjectExecution)
    (pe : ProjectExecution)
    (hmem : (stage, S) ∈ find_build_set outputs ap ch stages ba ss sp)
    (hpe : pe ∈ S) :
    (pe.project.stages.for_stage stage.name).isSome = true := by
  simp only [find_build_set] at hmem
  exact find_build_set_loop_participates outputs ch ba ss sp _ stages ap stage S pe hmem hpe

/-- Witness for C8: the execution of project B scheduled incrementally for
BUILD belongs to a project participating in BUILD. -/
theorem build_set_members_participate_witness :
    ((ProjectExecution.mk projB {"shared/util.go"}).project.stages.for_stage
      buildStage.name).isSome = true :=
  build_set_members_participate no_outputs {projA, projB} [revShared] [buildStage]
    false none none buildStage {ProjectExecution.mk projB {"shared/util.go"}}
    (ProjectExecution.mk projB {"shared/util.go"}) (by decide) (by decide)

theorem find_build_set_loop_filter_empty (outputs : Project → String → Option Output)
    (ch : List Revision) (ba : Bool) (ss : Option String) (s : String)
    (pl : List String) (htr : truthy (some s) = true) :
    ∀ (stages : List Stage) (ap : Finset Project),
    (∀ p ∈ ap, p.name ∉ pl) →
    ∀ (stage : Stage) (S : Finset ProjectExecution),
    (stage, S) ∈ find_build_set_loop outputs ch ba ss (some s) pl ap stages → S = ∅
  | [], _, _, _, _, h => absurd h (List.not_mem_nil _)
  | st :: rest, ap, habsent, stage, S, h => by
    rw [find_build_set_loop] at h
    by_cases hskip : truthy ss = true ∧ ss ≠ some st.name
    · rw [if_pos hskip] at h
      exact find_build_set_loop_filter_empty outputs ch ba ss s pl htr rest ap habsent stage S h
    · rw [if_neg hskip] at h
      rw [if_pos (by rw [htr, Bool.or_true] : (ba || truthy (some s)) = true)] at h
      rw [if_pos htr] at h
      have hnarrow : ap.filter (fun p => p.name ∈ pl) = ∅ :=
        Finset.filter_eq_empty_iff.mpr habsent
      rw [hnarrow] at h
      rcases List.mem_cons.mp h with heq | htail
      · have h2 : S = _ := congrArg Prod.snd heq
        rw [h2]
        simp [for_stage]
      · exact find_build_set_loop_filter_empty outputs ch ba ss s pl htr rest ∅
          (by intro p hp; exact absurd hp (Finset.not_mem_empty p)) stage S htail

/-- C4 counterexample: requesting the filter `B` when only project A is loaded
makes the resolver return normally, with an empty execution set for the
requested stage; no error of any kind is signalled. -/
theorem project_filter_absent_name_returns_normally :
    find_build_set no_outputs {projA} [] [buildStage] false none (some "B")
      = [(buildStage, (∅ : Finset ProjectExecution))] := by decide

/-- C4 amended: a non-empty explicit project filter whose names match no
loaded project is silently dropped by filtering: the resolver raises nothing
and every stage under consideration maps to the empty execution set. -/
theorem project_filter_absent_names_empty_sets (outputs : Project → String → Option Output)
    (ap : Finset Project) (ch : List Revision) (stages : List Stage) (ba : Bool)
    (ss : Option String) (s : String) (stage : Stage) (S : Finset ProjectExecution)
    (htr : truthy (some s) = true)
    (habsent : ∀ p ∈ ap, p.name ∉ split_on_comma s)
    (hmem : (stage, S) ∈ find_build_set outputs ap ch stages ba ss (some s)) :
    S = ∅ := by
  simp only [find_build_set] at hmem
  exact find_build_set_loop_filter_empty outputs ch ba ss s (split_on_comma s) htr
    stages ap habsent stage S hmem

/-- Witness for the amended C4: the concrete absent-name filter produces the
empty execution set for BUILD. -/
theorem project_filter_absent_names_empty_sets_witness :
    (∅ : Finset ProjectExecution) = ∅ :=
  project_filter_absent_names_empty_sets no_outputs {projA} [] [buildStage] false none
    "B" buildStage ∅ (by decide) (by decide) (by decide)

end Mpyl
